import Mathlib

/-!
Verification of the mirror-synchronization core of the Athena `passwd`
glue program (`passwd.c`).

The development shallowly embeds the two components the specification
describes:

* `read_line` (source lines 390-422): the growable-buffer line reader.
  A C stdio stream is modelled by `CStream`: the characters still to be
  delivered, whether the underlying device reports a read error once
  those characters are exhausted (`errAfter`), and the sticky `ferror`
  flag (`errFlag`).  `fgetsModel` models one `fgets(buf+offset, n, fp)`
  call: it delivers at most `n - 1` characters, stopping after a
  newline; on end of file with at least one character read it returns
  the partial chunk; on end of file with nothing read it returns
  `none`; if the device errors before the read is satisfied it returns
  `none` and sets the error flag (ISO C: `fgets` returns a null
  pointer on a read error).

* `update_passwd_local` (source lines 233-378): the mirror
  synchronizer.  The surrounding world (which `fopen`/`open`/`fdopen`/
  `fputs`/`fclose`/`rename` calls succeed, and the authoritative and
  mirror file contents) is an `Env`.  The function returns the process
  outcome (`Outcome.success` = the function returns normally and
  `main` exits 0; `Outcome.fatal` = `exit(1)`), the final mirror-file
  content, and whether a staging (temporary) file is left on disk.

All definitions are computable so that concrete runs evaluate by
`decide`.
-/

/-- Outcome of one `read_line` call: C return values `0` (a line was
read), `1` (end of file) and `-1` (I/O error or out of memory). -/
inductive ReadResult where
  | line : List Char → ReadResult
  | eof : ReadResult
  | fail : ReadResult
deriving DecidableEq

/-- A C stdio input stream: the characters still to be delivered,
whether the device reports a read error once they are exhausted, and
the sticky `ferror` indicator. -/
structure CStream where
  data : List Char
  errAfter : Bool
  errFlag : Bool
deriving DecidableEq

/-- Characters `fgets` would consume when asked for at most `n`
characters: stop after the first newline, at `n` characters, or at the
end of the available data. -/
def takeLine : List Char → Nat → List Char
  | _, 0 => []
  | [], _ + 1 => []
  | c :: cs, n + 1 => if c = '\n' then ['\n'] else c :: takeLine cs n

/-- Model of `fgets(dst, n, fp)`: reads at most `n - 1` characters,
stopping after a newline.  Returns `none` at end of file with nothing
read, or on a device read error (which also sets the `ferror` flag and
discards the partially read characters, whose buffer contents are
indeterminate per ISO C). -/
def fgetsModel (s : CStream) (n : Nat) : Option (List Char) × CStream :=
  let chunk := takeLine s.data (n - 1)
  if chunk.length = n - 1 ∨ chunk.getLast? = some '\n' then
    (some chunk, ⟨s.data.drop chunk.length, s.errAfter, s.errFlag⟩)
  else if s.errAfter then
    (none, ⟨[], true, true⟩)
  else if chunk.isEmpty then
    (none, s)
  else
    (some chunk, ⟨s.data.drop chunk.length, s.errAfter, s.errFlag⟩)

/-- Loop of `read_line` (source lines 403-421).  `acc` is the buffer
contents below `offset`; `bufsize` is the current buffer capacity;
`allocOk` tells whether an allocation of a given size succeeds
(`realloc(*buf, *bufsize * 2)`).  `fuel` bounds the iteration count;
`read_line` supplies enough fuel for the loop never to exhaust it. -/
def readLineAux (allocOk : Nat → Bool) : Nat → CStream → Nat → List Char → ReadResult × CStream × Nat
  | 0, s, bufsize, _ => (ReadResult.fail, s, bufsize)
  | fuel + 1, s, bufsize, acc =>
    match fgetsModel s (bufsize - acc.length) with
    | (none, s2) =>
      ((if acc.isEmpty then (if s2.errFlag then ReadResult.fail else ReadResult.eof)
        else ReadResult.line acc), s2, bufsize)
    | (some chunk, s2) =>
      let l := acc ++ chunk
      if l.getLast? = some '\n' then (ReadResult.line l.dropLast, s2, bufsize)
      else if allocOk (bufsize * 2) then readLineAux allocOk fuel s2 (bufsize * 2) l
      else (ReadResult.fail, s2, bufsize)

/-- `read_line(fp, &buf, &bufsize)` (source lines 390-422).  `bs` is
`none` while `*buf` is still the initial `NULL` (then `malloc(128)`
runs first), otherwise `some bufsize`.  Returns the outcome, the
stream state after the call, and the buffer capacity afterwards. -/
def read_line (allocOk : Nat → Bool) (s : CStream) (bs : Option Nat) :
    ReadResult × CStream × Option Nat :=
  match bs with
  | none =>
    if allocOk 128 then
      let r := readLineAux allocOk (s.data.length + 1) s 128 []
      (r.1, r.2.1, some r.2.2)
    else (ReadResult.fail, s, none)
  | some b =>
    let r := readLineAux allocOk (s.data.length + 1) s b []
    (r.1, r.2.1, some r.2.2)

/-- Allocation oracle under which every `malloc`/`realloc` succeeds. -/
def alwaysAlloc : Nat → Bool := fun _ => true

/-- The matching test of source lines 255 and 333:
`strncmp(line, username, len) == 0 && line[len] == ':'`, i.e. the line
starts with the username immediately followed by a colon. -/
def matchesUser (u l : List Char) : Bool :=
  decide (l.take u.length = u) && decide (l[u.length]? = some ':')

/-- The specification's matching criterion: the text of the line up to
(not including) the first colon exactly equals the username. -/
def specFieldMatch (u l : List Char) : Bool :=
  decide (':' ∈ l) && decide (l.takeWhile (fun c => decide (c ≠ ':')) = u)

/-- Lines of a file content, as the repeated `read_line` calls deliver
them: terminators are stripped, and a final line lacking a terminator
is still a line.  An empty file has no lines. -/
def splitLines : List Char → List (List Char)
  | [] => []
  | c :: cs =>
    if c = '\n' then [] :: splitLines cs
    else
      match splitLines cs with
      | [] => [[c]]
      | l :: ls => (c :: l) :: ls

/-- Bytes the copy loop writes for a list of lines: each line followed
by exactly one newline (`fputs(line, fp_out); putc('\n', fp_out)`,
source lines 335-340). -/
def renderLines : List (List Char) → List Char
  | [] => []
  | l :: ls => l ++ '\n' :: renderLines ls

/-- Replace the first line matching username `u` with `w`; all other
lines are kept, in order. -/
def replaceFirstLine (u w : List Char) : List (List Char) → List (List Char)
  | [] => []
  | l :: ls => if matchesUser u l then w :: ls else l :: replaceFirstLine u w ls

/-- Scan loop over the authoritative source (source lines 252-260):
yield the first line matching the username; a read failure or end of
file before a match leaves `found == 0`.  Fuel is supplied by
`scanAuth` and never runs out. -/
def scanAuthAux (allocOk : Nat → Bool) (u : List Char) :
    Nat → CStream → Option Nat → Option (List Char)
  | 0, _, _ => none
  | fuel + 1, s, bs =>
    match read_line allocOk s bs with
    | (ReadResult.line l, s2, bs2) =>
      if matchesUser u l then some l else scanAuthAux allocOk u fuel s2 bs2
    | _ => none

/-- Scan of the authoritative source for the username's record. -/
def scanAuth (allocOk : Nat → Bool) (u : List Char) (data : List Char) (err : Bool) :
    Option (List Char) :=
  scanAuthAux allocOk u (data.length + 1) ⟨data, err, false⟩ none

/-- Copy loop (source lines 330-341): stream the mirror through
`read_line`, writing each line plus a newline to the staging file,
replacing the first matching line with `w`.  Returns the `found` flag,
the final `read_line` status (`1` end of file, `-1` error), and the
bytes written. -/
def copyLoopAux (allocOk : Nat → Bool) (u w : List Char) :
    Nat → CStream → Option Nat → Bool → List Char → Bool × Int × List Char
  | 0, _, _, found, out => (found, -1, out)
  | fuel + 1, s, bs, found, out =>
    match read_line allocOk s bs with
    | (ReadResult.line l, s2, bs2) =>
      if !found && matchesUser u l then
        copyLoopAux allocOk u w fuel s2 bs2 true (out ++ w ++ ['\n'])
      else
        copyLoopAux allocOk u w fuel s2 bs2 found (out ++ l ++ ['\n'])
    | (ReadResult.eof, _, _) => (found, 1, out)
    | (ReadResult.fail, _, _) => (found, -1, out)

/-- Result of one `open(PATH_PASSWD_LOCAL_TMP, O_RDWR|O_CREAT|O_EXCL)`
attempt: success, failure with `EEXIST` (staging path occupied), or
any other failure. -/
inductive CreateR where
  | ok : CreateR
  | eexist : CreateR
  | err : CreateR
deriving DecidableEq

/-- The creation retry loop (source lines 292-312): up to 10 attempts,
retrying only on `EEXIST`, aborting on any other error. -/
def createLoop (res : Nat → CreateR) : Nat → Nat → Bool
  | _, 0 => false
  | i, n + 1 =>
    match res i with
    | CreateR.ok => true
    | CreateR.err => false
    | CreateR.eexist => createLoop res (i + 1) n

/-- Whether the staging file gets created, given the outcome of each
exclusive-creation attempt. -/
def createTmp (res : Nat → CreateR) : Bool :=
  createLoop res 0 10

/-- Process outcome: `success` = `update_passwd_local` returns and
`main` exits 0; `fatal` = `exit(1)`. -/
inductive Outcome where
  | success : Outcome
  | fatal : Outcome
deriving DecidableEq

/-- World in which one `update_passwd_local` run executes: contents of
the authoritative source and the mirror file, and which system calls
succeed.  `authErr` / `mirrorErr` mean the corresponding stream
reports a device read error once its content has been delivered. -/
structure Env where
  authOpenOk : Bool
  authData : List Char
  authErr : Bool
  mirror : Option (List Char)
  mirrorOpenErr : Bool
  mirrorErr : Bool
  createRes : Nat → CreateR
  fdopenOk : Bool
  outErr : Bool
  closeEOF : Bool
  renameOk : Bool
  allocOk : Nat → Bool

/-- Observable result of one run: the process outcome, the mirror-file
content afterwards, and whether a staging file remains on disk. -/
structure SyncResult where
  outcome : Outcome
  mirror : Option (List Char)
  tmpLeft : Bool
deriving DecidableEq

/-- The mirror synchronizer `update_passwd_local(username)` (source
lines 233-378), branch for branch:

1. open the authoritative source (fatal if it fails), scan for the
   username's record (fatal if no line matches);
2. open the mirror for reading (fatal whether it is missing, `ENOENT`,
   or unreadable);
3. create the staging file with the bounded retry loop, then `fdopen`
   it (fatal on failure, unlinking the file if it was created);
4. copy the mirror through `read_line` into the staging file,
   replacing the first matching line;
5. if no replacement occurred, unlink the staging file and return
   success (source lines 351-357) — note this happens before the
   read/write-error check of line 359;
6. otherwise fail (unlinking the staging file) on a read error, a
   write error, a close error, or a rename error; else commit via
   `rename`, which atomically replaces the mirror. -/
def update_passwd_local (env : Env) (u : List Char) : SyncResult :=
  if env.authOpenOk then
    match scanAuth env.allocOk u env.authData env.authErr with
    | none => ⟨Outcome.fatal, env.mirror, false⟩
    | some userline =>
      match env.mirror with
      | none => ⟨Outcome.fatal, none, false⟩
      | some c =>
        if env.mirrorOpenErr then ⟨Outcome.fatal, some c, false⟩
        else if createTmp env.createRes then
          if env.fdopenOk then
            let r := copyLoopAux env.allocOk u userline (c.length + 1)
              ⟨c, env.mirrorErr, false⟩ none false []
            if r.1 then
              if r.2.1 < 0 then ⟨Outcome.fatal, some c, false⟩
              else if env.outErr then ⟨Outcome.fatal, some c, false⟩
              else if env.closeEOF then ⟨Outcome.fatal, some c, false⟩
              else if env.renameOk then ⟨Outcome.success, some r.2.2, false⟩
              else ⟨Outcome.fatal, some c, false⟩
            else ⟨Outcome.success, some c, false⟩
          else ⟨Outcome.fatal, some c, false⟩
        else ⟨Outcome.fatal, some c, false⟩
  else ⟨Outcome.fatal, env.mirror, false⟩

/-- Process state while the staging file is live: the (pre-run) mirror
content and whether the staging file exists. -/
structure MidState where
  mirror : Option (List Char)
  tmpExists : Bool

/-- The signal handler `cleanup` (source lines 430-434): unlink the
staging file, then `exit(1)`.  It never touches the mirror file. -/
def cleanup (st : MidState) : SyncResult :=
  ⟨Outcome.fatal, st.mirror, false⟩

/-- A valid buffer state across `read_line` calls: either still
unallocated, or of capacity at least 2. -/
def goodBs : Option Nat → Prop
  | none => True
  | some b => 2 ≤ b

/-- A fully cooperative world: every system call succeeds, the streams
are error free, the authoritative source holds `auth` and the mirror
holds `mir`. -/
def envHappy (auth mir : List Char) : Env :=
  ⟨true, auth, false, some mir, false, false, fun _ => CreateR.ok, true,
   false, false, true, alwaysAlloc⟩

/-- World where the mirror stream delivers one line for `bob` and then
reports a device read error; everything else succeeds. -/
def envC3cex : Env :=
  ⟨true, ("alice:a1\n").data, false, some (("bob:x\n").data), false, true,
   fun _ => CreateR.ok, true, false, false, true, alwaysAlloc⟩

/-- World in which opening the authoritative source fails. -/
def envAuthFail : Env :=
  ⟨false, [], false, some (("bob:x\n").data), false, false,
   fun _ => CreateR.ok, true, false, false, true, alwaysAlloc⟩

/-- World where the mirror already holds two records for `alice`. -/
def envC4cex : Env :=
  ⟨true, ("alice:new\n").data, false, some (("alice:old1\nalice:old2\n").data),
   false, false, fun _ => CreateR.ok, true, false, false, true, alwaysAlloc⟩

/-- World where the mirror has no record for the user while the write,
close and rename calls would all fail: the no-replacement path never
consults them. -/
def envC5wit : Env :=
  ⟨true, ("alice:h1\n").data, false, some (("bob:h\n").data), false, false,
   fun _ => CreateR.ok, true, true, true, false, alwaysAlloc⟩

/-! ### Basic facts about `takeLine` -/

theorem takeLine_nil (n : Nat) : takeLine [] n = [] := by
  cases n <;> rfl

theorem takeLine_of_not_mem (d : List Char) (n : Nat) (h : '\n' ∉ d) :
    takeLine d n = d.take n := by
  induction d generalizing n with
  | nil => cases n <;> rfl
  | cons c cs ih =>
    cases n with
    | zero => rfl
    | succ m =>
      have hc : ¬c = '\n' := fun hc => h (hc ▸ List.mem_cons_self c cs)
      simp only [takeLine, if_neg hc, List.take_succ_cons]
      rw [ih m (fun hm => h (List.mem_cons_of_mem _ hm))]

theorem takeLine_append_nl (p r : List Char) (n : Nat) (h : '\n' ∉ p) :
    takeLine (p ++ '\n' :: r) n = if n ≤ p.length then p.take n else p ++ ['\n'] := by
  induction p generalizing n with
  | nil =>
    cases n with
    | zero => simp [takeLine]
    | succ m => simp [takeLine]
  | cons c cs ih =>
    have hc : ¬c = '\n' := fun hc => h (hc ▸ List.mem_cons_self c cs)
    cases n with
    | zero => simp [takeLine]
    | succ m =>
      simp only [List.cons_append, takeLine, if_neg hc, List.append_eq]
      rw [ih m (fun hm => h (List.mem_cons_of_mem _ hm))]
      by_cases hm : m ≤ cs.length
      · rw [if_pos hm, if_pos (by simpa using Nat.succ_le_succ hm), List.take_succ_cons]
      · rw [if_neg hm, if_neg (by simp; omega)]

/-! ### Behaviour of `readLineAux` on the streams the program feeds it -/

theorem readLineAux_empty (allocOk : Nat → Bool) (fuel : Nat) (e f : Bool) (b : Nat)
    (acc : List Char) (hfuel : 1 ≤ fuel) (hb : acc.length + 2 ≤ b) :
    readLineAux allocOk fuel ⟨[], e, f⟩ b acc =
      ((if acc.isEmpty then (if (e || f) then ReadResult.fail else ReadResult.eof)
        else ReadResult.line acc), ⟨[], e, e || f⟩, b) := by
  obtain ⟨k, rfl⟩ : ∃ k, fuel = k + 1 := ⟨fuel - 1, by omega⟩
  have hne : ¬((0 : Nat) = b - acc.length - 1) := by omega
  cases e with
  | false => simp [readLineAux, fgetsModel, takeLine_nil, hne]
  | true => simp [readLineAux, fgetsModel, takeLine_nil, hne]

theorem readLineAux_nl (fuel : Nat) (p r : List Char) (e f : Bool) (b : Nat) (acc : List Char)
    (hp : '\n' ∉ p) (hfuel : p.length + 1 ≤ fuel) (hb : acc.length + 2 ≤ b) :
    ∃ b2, readLineAux alwaysAlloc fuel ⟨p ++ '\n' :: r, e, f⟩ b acc
        = (ReadResult.line (acc ++ p), ⟨r, e, f⟩, b2) ∧ 2 ≤ b2 := by
  induction fuel generalizing p acc b with
  | zero => omega
  | succ k ih =>
    by_cases hlim : b - acc.length - 1 ≤ p.length
    · -- the chunk fills the buffer without reaching the newline: grow and loop
      have hchunk : takeLine (p ++ '\n' :: r) (b - acc.length - 1)
          = p.take (b - acc.length - 1) := by
        rw [takeLine_append_nl p r _ hp, if_pos hlim]
      have hlen : (p.take (b - acc.length - 1)).length = b - acc.length - 1 :=
        List.length_take_of_le hlim
      have hnonnil : p.take (b - acc.length - 1) ≠ [] := by
        intro h0
        rw [h0] at hlen
        simp at hlen
        omega
      obtain ⟨x, hx⟩ : ∃ x, (p.take (b - acc.length - 1)).getLast? = some x := by
        cases hq : (p.take (b - acc.length - 1)).getLast? with
        | none => exact absurd (List.getLast?_eq_none_iff.mp hq) hnonnil
        | some x => exact ⟨x, rfl⟩
      have hxp : x ∈ p := List.mem_of_mem_take (List.mem_of_getLast?_eq_some hx)
      have hlast : ¬(acc ++ p.take (b - acc.length - 1)).getLast? = some '\n' := by
        rw [List.getLast?_append, hx, Option.or_some]
        intro hcontra
        injection hcontra with hcontra
        exact hp (hcontra ▸ hxp)
      have hdrop : (p ++ '\n' :: r).drop (b - acc.length - 1)
          = p.drop (b - acc.length - 1) ++ '\n' :: r :=
        List.drop_append_of_le_length hlim
      have hstep : fgetsModel ⟨p ++ '\n' :: r, e, f⟩ (b - acc.length)
          = (some (p.take (b - acc.length - 1)),
             ⟨p.drop (b - acc.length - 1) ++ '\n' :: r, e, f⟩) := by
        simp only [fgetsModel, hchunk]
        rw [hlen, if_pos (Or.inl rfl), hdrop]
      obtain ⟨b2, heq, hb2⟩ := ih (p.drop (b - acc.length - 1)) (b * 2)
        (acc ++ p.take (b - acc.length - 1))
        (fun hm => hp (List.mem_of_mem_drop hm))
        (by
          rw [List.length_drop]
          omega)
        (by
          rw [List.length_append, hlen]
          omega)
      refine ⟨b2, ?_, hb2⟩
      have halloc : alwaysAlloc (b * 2) = true := rfl
      simp only [readLineAux, hstep]
      rw [if_neg hlast, halloc, if_pos rfl, heq, List.append_assoc, List.take_append_drop]
    · -- the newline fits in the buffer: return the stripped line
      have hchunk : takeLine (p ++ '\n' :: r) (b - acc.length - 1) = p ++ ['\n'] := by
        rw [takeLine_append_nl p r _ hp, if_neg hlim]
      have hdrop : (p ++ '\n' :: r).drop (p ++ ['\n']).length = r := by
        have hre : p ++ '\n' :: r = (p ++ ['\n']) ++ r := by simp
        rw [hre, List.drop_left]
      have hstep : fgetsModel ⟨p ++ '\n' :: r, e, f⟩ (b - acc.length)
          = (some (p ++ ['\n']), ⟨r, e, f⟩) := by
        simp only [fgetsModel, hchunk]
        rw [if_pos (Or.inr (List.getLast?_concat p)), hdrop]
      have hlast : (acc ++ (p ++ ['\n'])).getLast? = some '\n' := by
        rw [← List.append_assoc]
        exact List.getLast?_concat _
      refine ⟨b, ?_, by omega⟩
      simp only [readLineAux, hstep]
      rw [if_pos hlast, ← List.append_assoc, List.dropLast_concat]

theorem readLineAux_tail (fuel : Nat) (p : List Char) (f : Bool) (b : Nat) (acc : List Char)
    (hp : '\n' ∉ p) (hne : p ≠ []) (hfuel : p.length + 1 ≤ fuel) (hb : acc.length + 2 ≤ b) :
    ∃ b2, readLineAux alwaysAlloc fuel ⟨p, false, f⟩ b acc
        = (ReadResult.line (acc ++ p), ⟨[], false, f⟩, b2) ∧ 2 ≤ b2 := by
  induction fuel generalizing p acc b with
  | zero => omega
  | succ k ih =>
    have hppos : 0 < p.length := List.length_pos.mpr hne
    by_cases hlim : b - acc.length - 1 < p.length
    · -- the chunk fills the buffer before the data runs out: grow and loop
      have hchunk : takeLine p (b - acc.length - 1) = p.take (b - acc.length - 1) :=
        takeLine_of_not_mem p _ hp
      have hlen : (p.take (b - acc.length - 1)).length = b - acc.length - 1 :=
        List.length_take_of_le (Nat.le_of_lt hlim)
      have hnonnil : p.take (b - acc.length - 1) ≠ [] := by
        intro h0
        rw [h0] at hlen
        simp at hlen
        omega
      obtain ⟨x, hx⟩ : ∃ x, (p.take (b - acc.length - 1)).getLast? = some x := by
        cases hq : (p.take (b - acc.length - 1)).getLast? with
        | none => exact absurd (List.getLast?_eq_none_iff.mp hq) hnonnil
        | some x => exact ⟨x, rfl⟩
      have hxp : x ∈ p := List.mem_of_mem_take (List.mem_of_getLast?_eq_some hx)
      have hlast : ¬(acc ++ p.take (b - acc.length - 1)).getLast? = some '\n' := by
        rw [List.getLast?_append, hx, Option.or_some]
        intro hcontra
        injection hcontra with hcontra
        exact hp (hcontra ▸ hxp)
      have hstep : fgetsModel ⟨p, false, f⟩ (b - acc.length)
          = (some (p.take (b - acc.length - 1)),
             ⟨p.drop (b - acc.length - 1), false, f⟩) := by
        simp only [fgetsModel, hchunk]
        rw [hlen, if_pos (Or.inl rfl)]
      have hdne : p.drop (b - acc.length - 1) ≠ [] := by
        intro h0
        have := congrArg List.length h0
        rw [List.length_drop] at this
        simp at this
        omega
      obtain ⟨b2, heq, hb2⟩ := ih (p.drop (b - acc.length - 1)) (b * 2)
        (acc ++ p.take (b - acc.length - 1))
        (fun hm => hp (List.mem_of_mem_drop hm)) hdne
        (by
          rw [List.length_drop]
          omega)
        (by
          rw [List.length_append, hlen]
          omega)
      refine ⟨b2, ?_, hb2⟩
      have halloc : alwaysAlloc (b * 2) = true := rfl
      simp only [readLineAux, hstep]
      rw [if_neg hlast, halloc, if_pos rfl, heq, List.append_assoc, List.take_append_drop]
    · -- all remaining data fits: one partial read, then end of file ends the line
      have hchunk : takeLine p (b - acc.length - 1) = p := by
        rw [takeLine_of_not_mem p _ hp, List.take_of_length_le (by omega)]
      obtain ⟨x, hx⟩ : ∃ x, p.getLast? = some x := by
        cases hq : p.getLast? with
        | none => exact absurd (List.getLast?_eq_none_iff.mp hq) hne
        | some x => exact ⟨x, rfl⟩
      have hxp : x ∈ p := List.mem_of_getLast?_eq_some hx
      have hxn : ¬x = '\n' := fun hcontra => hp (hcontra ▸ hxp)
      have hplast : ¬p.getLast? = some '\n' := by
        rw [hx]
        intro hcontra
        injection hcontra with hcontra
        exact hxn hcontra
      have hstep : fgetsModel ⟨p, false, f⟩ (b - acc.length)
          = (some p, ⟨[], false, f⟩) := by
        simp only [fgetsModel, hchunk]
        by_cases hfull : p.length = b - acc.length - 1
        · rw [if_pos (Or.inl hfull)]
          simp
        · rw [if_neg (by
            intro hcontra
            rcases hcontra with hcontra | hcontra
            · exact hfull hcontra
            · exact hplast hcontra)]
          have hie : p.isEmpty = false := by
            cases p with
            | nil => exact absurd rfl hne
            | cons a as => rfl
          simp [hie]
      have hlast : ¬(acc ++ p).getLast? = some '\n' := by
        rw [List.getLast?_append, hx, Option.or_some]
        intro hcontra
        injection hcontra with hcontra
        exact hxn hcontra
      refine ⟨b * 2, ?_, by omega⟩
      have halloc : alwaysAlloc (b * 2) = true := rfl
      simp only [readLineAux, hstep]
      rw [if_neg hlast, halloc, if_pos rfl]
      rw [readLineAux_empty alwaysAlloc k false f (b * 2) (acc ++ p)
        (by omega)
        (by
          rw [List.length_append]
          omega)]
      have hie2 : (acc ++ p).isEmpty = false := by
        have : acc ++ p ≠ [] := by
          intro h0
          exact hne (List.append_eq_nil.mp h0).2
        cases hq : acc ++ p with
        | nil => exact absurd hq this
        | cons a as => rfl
      rw [hie2]
      simp

theorem readLineAux_reallocFail (aOk : Nat → Bool) (fuel : Nat) (d : List Char)
    (e f : Bool) (b : Nat) (acc : List Char)
    (hb : acc.length + 2 ≤ b) (hnl : '\n' ∉ d) (hlen : b - acc.length - 1 ≤ d.length)
    (hre : aOk (b * 2) = false) :
    readLineAux aOk (fuel + 1) ⟨d, e, f⟩ b acc
      = (ReadResult.fail, ⟨d.drop (b - acc.length - 1), e, f⟩, b) := by
  have hchunk : takeLine d (b - acc.length - 1) = d.take (b - acc.length - 1) :=
    takeLine_of_not_mem d _ hnl
  have hlen2 : (d.take (b - acc.length - 1)).length = b - acc.length - 1 :=
    List.length_take_of_le hlen
  have hnonnil : d.take (b - acc.length - 1) ≠ [] := by
    intro h0
    rw [h0] at hlen2
    simp at hlen2
    omega
  obtain ⟨x, hx⟩ : ∃ x, (d.take (b - acc.length - 1)).getLast? = some x := by
    cases hq : (d.take (b - acc.length - 1)).getLast? with
    | none => exact absurd (List.getLast?_eq_none_iff.mp hq) hnonnil
    | some x => exact ⟨x, rfl⟩
  have hxd : x ∈ d := List.mem_of_mem_take (List.mem_of_getLast?_eq_some hx)
  have hlast : ¬(acc ++ d.take (b - acc.length - 1)).getLast? = some '\n' := by
    rw [List.getLast?_append, hx, Option.or_some]
    intro hcontra
    injection hcontra with hcontra
    exact hnl (hcontra ▸ hxd)
  have hstep : fgetsModel ⟨d, e, f⟩ (b - acc.length)
      = (some (d.take (b - acc.length - 1)), ⟨d.drop (b - acc.length - 1), e, f⟩) := by
    simp only [fgetsModel, hchunk]
    rw [hlen2, if_pos (Or.inl rfl)]
  simp only [readLineAux, hstep]
  rw [if_neg hlast, hre]
  simp

theorem readLineAux_errShort (aOk : Nat → Bool) (fuel : Nat) (d : List Char) (f : Bool)
    (b : Nat) (acc : List Char) (hb : acc.length + 2 ≤ b) (hnl : '\n' ∉ d)
    (hshort : d.length < b - acc.length - 1) :
    readLineAux aOk (fuel + 1) ⟨d, true, f⟩ b acc
      = ((if acc.isEmpty then ReadResult.fail else ReadResult.line acc),
         ⟨[], true, true⟩, b) := by
  have hchunk : takeLine d (b - acc.length - 1) = d :=
    (takeLine_of_not_mem d _ hnl).trans (List.take_of_length_le (by omega))
  have hlenne : ¬d.length = b - acc.length - 1 := by omega
  have hlast : ¬d.getLast? = some '\n' := by
    intro hcontra
    exact hnl (List.mem_of_getLast?_eq_some hcontra)
  have hstep : fgetsModel ⟨d, true, f⟩ (b - acc.length) = (none, ⟨[], true, true⟩) := by
    simp only [fgetsModel, hchunk]
    rw [if_neg (by
      intro hcontra
      rcases hcontra with hcontra | hcontra
      · exact hlenne hcontra
      · exact hlast hcontra)]
    simp
  simp only [readLineAux, hstep]
  simp

/-! ### The `read_line` contract on the streams the program builds -/

theorem read_line_eof (bs : Option Nat) (hbs : goodBs bs) :
    ∃ b2, read_line alwaysAlloc ⟨[], false, false⟩ bs
        = (ReadResult.eof, ⟨[], false, false⟩, some b2) ∧ 2 ≤ b2 := by
  cases bs with
  | none =>
    refine ⟨128, ?_, by omega⟩
    simp only [read_line, alwaysAlloc, if_pos rfl]
    rw [readLineAux_empty alwaysAlloc _ false false 128 [] (by simp) (by simp)]
    simp
  | some b =>
    refine ⟨b, ?_, hbs⟩
    simp only [read_line]
    rw [readLineAux_empty alwaysAlloc _ false false b [] (by simp) (by simpa using hbs)]
    simp

theorem read_line_errEnd (f : Bool) (bs : Option Nat) (hbs : goodBs bs) :
    ∃ b2, read_line alwaysAlloc ⟨[], true, f⟩ bs
        = (ReadResult.fail, ⟨[], true, true⟩, some b2) ∧ 2 ≤ b2 := by
  cases bs with
  | none =>
    refine ⟨128, ?_, by omega⟩
    simp only [read_line, alwaysAlloc, if_pos rfl]
    rw [readLineAux_empty alwaysAlloc _ true f 128 [] (by simp) (by simp)]
    simp
  | some b =>
    refine ⟨b, ?_, hbs⟩
    simp only [read_line]
    rw [readLineAux_empty alwaysAlloc _ true f b [] (by simp) (by simpa using hbs)]
    simp

theorem read_line_nl (p r : List Char) (e f : Bool) (bs : Option Nat)
    (hp : '\n' ∉ p) (hbs : goodBs bs) :
    ∃ b2, read_line alwaysAlloc ⟨p ++ '\n' :: r, e, f⟩ bs
        = (ReadResult.line p, ⟨r, e, f⟩, some b2) ∧ 2 ≤ b2 := by
  have hfuel : p.length + 1 ≤ (p ++ '\n' :: r).length + 1 := by
    rw [List.length_append]
    omega
  cases bs with
  | none =>
    obtain ⟨b2, heq, hb2⟩ := readLineAux_nl ((p ++ '\n' :: r).length + 1) p r e f 128 []
      hp hfuel (by simp)
    refine ⟨b2, ?_, hb2⟩
    simp only [read_line, alwaysAlloc, if_pos rfl, heq]
    simp
  | some b =>
    obtain ⟨b2, heq, hb2⟩ := readLineAux_nl ((p ++ '\n' :: r).length + 1) p r e f b []
      hp hfuel (by simpa using hbs)
    refine ⟨b2, ?_, hb2⟩
    simp only [read_line, heq]
    simp

theorem read_line_tail (p : List Char) (f : Bool) (bs : Option Nat)
    (hp : '\n' ∉ p) (hne : p ≠ []) (hbs : goodBs bs) :
    ∃ b2, read_line alwaysAlloc ⟨p, false, f⟩ bs
        = (ReadResult.line p, ⟨[], false, f⟩, some b2) ∧ 2 ≤ b2 := by
  cases bs with
  | none =>
    obtain ⟨b2, heq, hb2⟩ := readLineAux_tail (p.length + 1) p f 128 []
      hp hne (by omega) (by simp)
    refine ⟨b2, ?_, hb2⟩
    simp only [read_line, alwaysAlloc, if_pos rfl, heq]
    simp
  | some b =>
    obtain ⟨b2, heq, hb2⟩ := readLineAux_tail (p.length + 1) p f b []
      hp hne (by omega) (by simpa using hbs)
    refine ⟨b2, ?_, hb2⟩
    simp only [read_line, heq]
    simp

/-! ### Facts about `splitLines`, `renderLines` and `replaceFirstLine` -/

theorem exists_split_first (a : Char) (l : List Char) (h : a ∈ l) :
    ∃ t, l = l.takeWhile (fun c => decide (c ≠ a)) ++ a :: t
      ∧ a ∉ l.takeWhile (fun c => decide (c ≠ a)) := by
  induction l with
  | nil => cases h
  | cons x xs ih =>
    by_cases hx : x = a
    · subst hx
      refine ⟨xs, ?_, ?_⟩
      · rw [List.takeWhile_cons_of_neg (by simp)]
        rfl
      · rw [List.takeWhile_cons_of_neg (by simp)]
        exact List.not_mem_nil x
    · have hmem : a ∈ xs := by
        rcases List.mem_cons.mp h with hax | hax
        · exact absurd hax.symm hx
        · exact hax
      obtain ⟨t, ht, hnm⟩ := ih hmem
      refine ⟨t, ?_, ?_⟩
      · rw [List.takeWhile_cons_of_pos (by simp [hx])]
        rw [List.cons_append, ← ht]
      · rw [List.takeWhile_cons_of_pos (by simp [hx])]
        intro hcontra
        rcases List.mem_cons.mp hcontra with hax | hax
        · exact hx hax.symm
        · exact hnm hax

theorem splitLines_nl (p r : List Char) (hp : '\n' ∉ p) :
    splitLines (p ++ '\n' :: r) = p :: splitLines r := by
  induction p with
  | nil => simp [splitLines]
  | cons c cs ih =>
    have hc : ¬c = '\n' := fun hcontra => hp (hcontra ▸ List.mem_cons_self c cs)
    have ihh := ih (fun hm => hp (List.mem_cons_of_mem _ hm))
    simp only [List.cons_append, splitLines, if_neg hc, List.append_eq]
    rw [ihh]

theorem splitLines_single (c : List Char) (hne : c ≠ []) (hnl : '\n' ∉ c) :
    splitLines c = [c] := by
  induction c with
  | nil => exact absurd rfl hne
  | cons x xs ih =>
    have hx : ¬x = '\n' := fun hcontra => hnl (hcontra ▸ List.mem_cons_self x xs)
    by_cases hxs : xs = []
    · subst hxs
      simp [splitLines, hx]
    · simp only [splitLines, if_neg hx]
      rw [ih hxs (fun hm => hnl (List.mem_cons_of_mem _ hm))]

theorem splitLines_ne_nil (c : List Char) (hne : c ≠ []) : splitLines c ≠ [] := by
  cases c with
  | nil => exact absurd rfl hne
  | cons x xs =>
    by_cases hx : x = '\n'
    · simp [splitLines, hx]
    · cases hsp : splitLines xs with
      | nil => simp [splitLines, hx, hsp]
      | cons l0 ls => simp [splitLines, hx, hsp]

theorem splitLines_not_nl (c : List Char) : ∀ l ∈ splitLines c, '\n' ∉ l := by
  induction c with
  | nil => simp [splitLines]
  | cons x xs ih =>
    by_cases hx : x = '\n'
    · subst hx
      simp only [splitLines, if_pos rfl]
      intro l hl
      rcases List.mem_cons.mp hl with hl | hl
      · subst hl
        exact List.not_mem_nil _
      · exact ih l hl
    · cases hsp : splitLines xs with
      | nil =>
        simp only [splitLines, if_neg hx, hsp]
        intro l hl
        rcases List.mem_cons.mp hl with hl | hl
        · subst hl
          intro hcontra
          rcases List.mem_cons.mp hcontra with hcontra | hcontra
          · exact hx hcontra.symm
          · exact absurd hcontra (List.not_mem_nil _)
        · exact absurd hl (List.not_mem_nil _)
      | cons l0 ls =>
        simp only [splitLines, if_neg hx, hsp]
        intro l hl
        rcases List.mem_cons.mp hl with hl | hl
        · subst hl
          intro hcontra
          rcases List.mem_cons.mp hcontra with hcontra | hcontra
          · exact hx hcontra.symm
          · exact ih l0 (hsp ▸ List.mem_cons_self l0 ls) hcontra
        · exact ih l (hsp ▸ List.mem_cons_of_mem l0 hl)

theorem splitLines_render (ls : List (List Char)) (h : ∀ l ∈ ls, '\n' ∉ l) :
    splitLines (renderLines ls) = ls := by
  induction ls with
  | nil => rfl
  | cons l ls ih =>
    simp only [renderLines]
    rw [splitLines_nl l (renderLines ls) (h l (List.mem_cons_self l ls)),
      ih (fun x hx => h x (List.mem_cons_of_mem _ hx))]

theorem splitLines_cons_nl (cs : List Char) :
    splitLines ('\n' :: cs) = [] :: splitLines cs := by
  simp [splitLines]

theorem splitLines_cons_ne (x : Char) (cs : List Char) (l0 : List Char)
    (ls : List (List Char)) (hx : ¬x = '\n') (h : splitLines cs = l0 :: ls) :
    splitLines (x :: cs) = (x :: l0) :: ls := by
  simp [splitLines, hx, h]

theorem renderLines_no_final_nl (c : List Char) (hne : c ≠ [])
    (hl : ¬c.getLast? = some '\n') :
    renderLines (splitLines c) = c ++ ['\n'] := by
  induction c with
  | nil => exact absurd rfl hne
  | cons x xs ih =>
    cases xs with
    | nil =>
      have hx : ¬x = '\n' := by
        intro hcontra
        subst hcontra
        exact hl rfl
      simp [splitLines, hx, renderLines]
    | cons y ys =>
      have hlast : ¬(y :: ys).getLast? = some '\n' := by
        rwa [List.getLast?_cons_cons] at hl
      have ihh := ih (by simp) hlast
      by_cases hx : x = '\n'
      · subst hx
        rw [splitLines_cons_nl]
        simp only [renderLines, List.nil_append]
        rw [ihh]
        rfl
      · have hnn := splitLines_ne_nil (y :: ys) (by simp)
        cases hsp : splitLines (y :: ys) with
        | nil => exact absurd hsp hnn
        | cons l0 ls =>
          rw [splitLines_cons_ne x (y :: ys) l0 ls hx hsp]
          simp only [renderLines]
          rw [hsp] at ihh
          simp only [renderLines] at ihh
          rw [List.cons_append, ihh]
          simp

theorem replaceFirstLine_of_split (u w m : List Char) (pre post : List (List Char))
    (hpre : pre.any (matchesUser u) = false) (hm : matchesUser u m = true) :
    replaceFirstLine u w (pre ++ m :: post) = pre ++ w :: post := by
  induction pre with
  | nil =>
    simp only [List.nil_append, replaceFirstLine, if_pos hm]
  | cons l ls ih =>
    have hl : ¬matchesUser u l = true := by
      simp only [List.any_cons, Bool.or_eq_false_iff] at hpre
      simp [hpre.1]
    have hls : ls.any (matchesUser u) = false := by
      simp only [List.any_cons, Bool.or_eq_false_iff] at hpre
      exact hpre.2
    simp only [List.cons_append, replaceFirstLine, if_neg hl, List.append_eq]
    rw [ih hls]

theorem replaceFirstLine_of_no_match (u w : List Char) (ls : List (List Char))
    (h : ls.any (matchesUser u) = false) :
    replaceFirstLine u w ls = ls := by
  induction ls with
  | nil => rfl
  | cons l ls ih =>
    simp only [List.any_cons, Bool.or_eq_false_iff] at h
    have hl : ¬matchesUser u l = true := by simp [h.1]
    simp only [replaceFirstLine]
    rw [if_neg hl, ih h.2]

theorem replaceFirstLine_idem (u w : List Char) (ls : List (List Char))
    (hw : matchesUser u w = true) :
    replaceFirstLine u w (replaceFirstLine u w ls) = replaceFirstLine u w ls := by
  induction ls with
  | nil => rfl
  | cons l ls ih =>
    by_cases hl : matchesUser u l = true
    · simp [replaceFirstLine, hl, hw]
    · simp only [replaceFirstLine, if_neg hl]
      rw [ih]

theorem mem_replaceFirstLine (u w : List Char) (ls : List (List Char)) (x : List Char)
    (hx : x ∈ replaceFirstLine u w ls) : x = w ∨ x ∈ ls := by
  induction ls with
  | nil => exact absurd hx (List.not_mem_nil x)
  | cons l ls ih =>
    by_cases hl : matchesUser u l = true
    · simp only [replaceFirstLine, if_pos hl] at hx
      rcases List.mem_cons.mp hx with hx | hx
      · exact Or.inl hx
      · exact Or.inr (List.mem_cons_of_mem l hx)
    · simp only [replaceFirstLine, if_neg hl] at hx
      rcases List.mem_cons.mp hx with hx | hx
      · exact Or.inr (hx ▸ List.mem_cons_self l ls)
      · rcases ih hx with hx | hx
        · exact Or.inl hx
        · exact Or.inr (List.mem_cons_of_mem l hx)

theorem replaceFirstLine_mem_self (u w : List Char) (ls : List (List Char))
    (h : ls.any (matchesUser u) = true) : w ∈ replaceFirstLine u w ls := by
  induction ls with
  | nil => simp at h
  | cons l ls ih =>
    by_cases hl : matchesUser u l = true
    · simp [replaceFirstLine, hl]
    · simp only [List.any_cons, hl, Bool.false_or] at h
      simp only [replaceFirstLine, if_neg hl]
      exact List.mem_cons_of_mem l (ih h)

theorem countP_replaceFirstLine (u w : List Char) (ls : List (List Char))
    (hw : matchesUser u w = true) :
    (replaceFirstLine u w ls).countP (matchesUser u) = ls.countP (matchesUser u) := by
  induction ls with
  | nil => rfl
  | cons l ls ih =>
    by_cases hl : matchesUser u l = true
    · simp [replaceFirstLine, hl, List.countP_cons, hw]
    · simp only [replaceFirstLine, if_neg hl, List.countP_cons, ih]

theorem exists_split_first' (a : Char) (l : List Char) (h : a ∈ l) :
    ∃ p t, l = p ++ a :: t ∧ a ∉ p := by
  obtain ⟨t, ht, hnm⟩ := exists_split_first a l h
  exact ⟨_, t, ht, hnm⟩

/-! ### The scan and copy loops compute `find?` and `replaceFirstLine` -/

theorem scanAuthAux_eq (u : List Char) (fuel : Nat) :
    ∀ (c : List Char) (bs : Option Nat), c.length + 1 ≤ fuel → goodBs bs →
    scanAuthAux alwaysAlloc u fuel ⟨c, false, false⟩ bs
      = (splitLines c).find? (matchesUser u) := by
  induction fuel with
  | zero =>
    intro c bs hf _
    omega
  | succ k ih =>
    intro c bs hf hbs
    by_cases hc : c = []
    · subst hc
      obtain ⟨b2, heq, _⟩ := read_line_eof bs hbs
      simp only [scanAuthAux, heq]
      rfl
    · have hcpos : 0 < c.length := List.length_pos.mpr hc
      by_cases hnl : '\n' ∈ c
      · obtain ⟨p, t, hct, hnm⟩ := exists_split_first' '\n' c hnl
        obtain ⟨b2, heq, hb2⟩ := read_line_nl p t false false bs hnm hbs
        rw [hct] at hf ⊢
        rw [List.length_append, List.length_cons] at hf
        simp only [scanAuthAux, heq]
        rw [splitLines_nl p t hnm]
        by_cases hm : matchesUser u p = true
        · rw [if_pos hm, List.find?_cons_of_pos _ hm]
        · rw [if_neg hm, List.find?_cons_of_neg _ hm]
          exact ih t (some b2) (by omega) hb2
      · obtain ⟨b2, heq, hb2⟩ := read_line_tail c false bs hnl hc hbs
        simp only [scanAuthAux, heq]
        rw [splitLines_single c hc hnl]
        by_cases hm : matchesUser u c = true
        · rw [if_pos hm, List.find?_cons_of_pos _ hm]
        · rw [if_neg hm, List.find?_cons_of_neg _ hm]
          rw [ih [] (some b2) (by simp only [List.length_nil]; omega) hb2]
          rfl

theorem scanAuth_eq (u c : List Char) :
    scanAuth alwaysAlloc u c false = (splitLines c).find? (matchesUser u) :=
  scanAuthAux_eq u (c.length + 1) c none (Nat.le_refl _) trivial

theorem copyLoopAux_found (u w : List Char) (fuel : Nat) :
    ∀ (c out : List Char) (bs : Option Nat), c.length + 1 ≤ fuel → goodBs bs →
    copyLoopAux alwaysAlloc u w fuel ⟨c, false, false⟩ bs true out
      = (true, 1, out ++ renderLines (splitLines c)) := by
  induction fuel with
  | zero =>
    intro c out bs hf _
    omega
  | succ k ih =>
    intro c out bs hf hbs
    by_cases hc : c = []
    · subst hc
      obtain ⟨b2, heq, _⟩ := read_line_eof bs hbs
      simp only [copyLoopAux, heq]
      simp [splitLines, renderLines]
    · have hcpos : 0 < c.length := List.length_pos.mpr hc
      by_cases hnl : '\n' ∈ c
      · obtain ⟨p, t, hct, hnm⟩ := exists_split_first' '\n' c hnl
        obtain ⟨b2, heq, hb2⟩ := read_line_nl p t false false bs hnm hbs
        rw [hct] at hf ⊢
        rw [List.length_append, List.length_cons] at hf
        simp only [copyLoopAux, heq]
        rw [if_neg (by simp)]
        rw [ih t (out ++ p ++ ['\n']) (some b2) (by omega) hb2]
        rw [splitLines_nl p t hnm]
        simp only [renderLines]
        simp [List.append_assoc]
      · obtain ⟨b2, heq, hb2⟩ := read_line_tail c false bs hnl hc hbs
        simp only [copyLoopAux, heq]
        rw [if_neg (by simp)]
        rw [ih [] (out ++ c ++ ['\n']) (some b2) (by simp only [List.length_nil]; omega) hb2]
        rw [splitLines_single c hc hnl]
        simp only [splitLines, renderLines]
        simp [List.append_assoc]

theorem copyLoopAux_go (u w : List Char) (fuel : Nat) :
    ∀ (c out : List Char) (bs : Option Nat), c.length + 1 ≤ fuel → goodBs bs →
    copyLoopAux alwaysAlloc u w fuel ⟨c, false, false⟩ bs false out
      = ((splitLines c).any (matchesUser u), 1,
         out ++ renderLines (replaceFirstLine u w (splitLines c))) := by
  induction fuel with
  | zero =>
    intro c out bs hf _
    omega
  | succ k ih =>
    intro c out bs hf hbs
    by_cases hc : c = []
    · subst hc
      obtain ⟨b2, heq, _⟩ := read_line_eof bs hbs
      simp only [copyLoopAux, heq]
      simp [splitLines, renderLines, replaceFirstLine]
    · have hcpos : 0 < c.length := List.length_pos.mpr hc
      by_cases hnl : '\n' ∈ c
      · obtain ⟨p, t, hct, hnm⟩ := exists_split_first' '\n' c hnl
        obtain ⟨b2, heq, hb2⟩ := read_line_nl p t false false bs hnm hbs
        rw [hct] at hf ⊢
        rw [List.length_append, List.length_cons] at hf
        simp only [copyLoopAux, heq]
        rw [splitLines_nl p t hnm]
        by_cases hm : matchesUser u p = true
        · rw [if_pos (by simp [hm])]
          rw [copyLoopAux_found u w k t (out ++ w ++ ['\n']) (some b2) (by omega) hb2]
          simp only [List.any_cons, hm, Bool.true_or, replaceFirstLine, if_pos hm,
            renderLines]
          simp [List.append_assoc]
        · rw [if_neg (by simp [hm])]
          rw [ih t (out ++ p ++ ['\n']) (some b2) (by omega) hb2]
          have hm2 : matchesUser u p = false := by
            cases hq : matchesUser u p
            · rfl
            · exact absurd hq hm
          simp only [List.any_cons, replaceFirstLine, if_neg hm, renderLines, hm2,
            Bool.false_or]
          simp [List.append_assoc]
      · obtain ⟨b2, heq, hb2⟩ := read_line_tail c false bs hnl hc hbs
        simp only [copyLoopAux, heq]
        rw [splitLines_single c hc hnl]
        by_cases hm : matchesUser u c = true
        · rw [if_pos (by simp [hm])]
          rw [copyLoopAux_found u w k [] (out ++ w ++ ['\n']) (some b2) (by simp only [List.length_nil]; omega) hb2]
          simp only [List.any_cons, hm, Bool.true_or, replaceFirstLine, if_pos hm,
            renderLines]
          simp [splitLines, renderLines, List.append_assoc]
        · rw [if_neg (by simp [hm])]
          rw [ih [] (out ++ c ++ ['\n']) (some b2) (by simp only [List.length_nil]; omega) hb2]
          simp only [List.any_cons, replaceFirstLine, if_neg hm, renderLines]
          simp [splitLines, renderLines, replaceFirstLine, hm, List.append_assoc]

/-! ### The code's matcher agrees with the specification's field test -/

theorem getElem_some_drop (l : List Char) (n : Nat) (c : Char) (h : l[n]? = some c) :
    ∃ t, l.drop n = c :: t := by
  induction l generalizing n with
  | nil => simp at h
  | cons x xs ih =>
    cases n with
    | zero =>
      rw [List.getElem?_cons_zero] at h
      injection h with h
      exact ⟨xs, by rw [h, List.drop]⟩
    | succ m =>
      rw [List.getElem?_cons_succ] at h
      obtain ⟨t, ht⟩ := ih m h
      exact ⟨t, by rw [List.drop_succ_cons, ht]⟩

theorem takeWhile_all_append (p : Char → Bool) (u v : List Char)
    (h : ∀ x ∈ u, p x = true) : (u ++ v).takeWhile p = u ++ v.takeWhile p := by
  induction u with
  | nil => simp
  | cons x xs ih =>
    rw [List.cons_append, List.takeWhile_cons_of_pos (h x (List.mem_cons_self x xs)),
      ih (fun y hy => h y (List.mem_cons_of_mem x hy)), List.cons_append]

theorem matchesUser_eq_specFieldMatch (u l : List Char) (hu : ':' ∉ u) :
    matchesUser u l = specFieldMatch u l := by
  rw [Bool.eq_iff_iff]
  simp only [matchesUser, specFieldMatch, Bool.and_eq_true, decide_eq_true_eq]
  constructor
  · rintro ⟨h1, h2⟩
    obtain ⟨t, ht⟩ := getElem_some_drop l u.length ':' h2
    have hl : l = u ++ ':' :: t := by
      conv_lhs => rw [← List.take_append_drop u.length l]
      rw [h1, ht]
    constructor
    · rw [hl]
      exact List.mem_append.mpr (Or.inr (List.mem_cons_self _ _))
    · rw [hl, takeWhile_all_append _ u (':' :: t)
        (fun x hx => by simp; intro hcontra; exact hu (hcontra ▸ hx))]
      rw [List.takeWhile_cons_of_neg (by simp)]
      simp
  · rintro ⟨h1, h2⟩
    obtain ⟨t, ht, hnm⟩ := exists_split_first ':' l h1
    rw [h2] at ht
    constructor
    · rw [ht, List.take_left]
    · rw [ht, List.getElem?_append_right (Nat.le_refl _)]
      simp

/-! ### Evaluating `update_passwd_local` on well-behaved worlds -/

theorem update_skip (env : Env) (u c w : List Char)
    (hopen : env.authOpenOk = true) (hae : env.authErr = false)
    (hm : env.mirror = some c) (hmo : env.mirrorOpenErr = false)
    (hme : env.mirrorErr = false)
    (hcr : createTmp env.createRes = true) (hfd : env.fdopenOk = true)
    (hal : env.allocOk = alwaysAlloc)
    (hw : (splitLines env.authData).find? (matchesUser u) = some w)
    (hnone : (splitLines c).any (matchesUser u) = false) :
    update_passwd_local env u = ⟨Outcome.success, some c, false⟩ := by
  have hscan : scanAuth env.allocOk u env.authData env.authErr = some w := by
    rw [hal, hae, scanAuth_eq, hw]
  have hcopy := copyLoopAux_go u w (c.length + 1) c [] none (Nat.le_refl _) trivial
  unfold update_passwd_local
  rw [hscan, hm, hal, hme]
  simp only [hopen, if_true, hmo, Bool.false_eq_true, if_false, hcr, hfd, hcopy, hnone]

theorem update_replace (env : Env) (u c w : List Char)
    (hopen : env.authOpenOk = true) (hae : env.authErr = false)
    (hm : env.mirror = some c) (hmo : env.mirrorOpenErr = false)
    (hme : env.mirrorErr = false)
    (hcr : createTmp env.createRes = true) (hfd : env.fdopenOk = true)
    (hoe : env.outErr = false) (hce : env.closeEOF = false)
    (hrn : env.renameOk = true)
    (hal : env.allocOk = alwaysAlloc)
    (hw : (splitLines env.authData).find? (matchesUser u) = some w)
    (hsome : (splitLines c).any (matchesUser u) = true) :
    update_passwd_local env u
      = ⟨Outcome.success,
         some (renderLines (replaceFirstLine u w (splitLines c))), false⟩ := by
  have hscan : scanAuth env.allocOk u env.authData env.authErr = some w := by
    rw [hal, hae, scanAuth_eq, hw]
  have hcopy := copyLoopAux_go u w (c.length + 1) c [] none (Nat.le_refl _) trivial
  unfold update_passwd_local
  rw [hscan, hm, hal, hme]
  simp only [hopen, if_true, hmo, Bool.false_eq_true, if_false, hcr, hfd, hcopy, hsome,
    hoe, hce, hrn]
  simp

theorem upd_tmpLeft (env : Env) (u : List Char) :
    (update_passwd_local env u).tmpLeft = false := by
  simp only [update_passwd_local]
  repeat' split
  all_goals rfl

theorem upd_fatal_mirror (env : Env) (u : List Char) :
    (update_passwd_local env u).outcome = Outcome.fatal →
    (update_passwd_local env u).mirror = env.mirror := by
  simp only [update_passwd_local]
  repeat' split
  all_goals intro h
  all_goals simp_all

theorem upd_success_shape (env : Env) (u : List Char)
    (h : (update_passwd_local env u).outcome = Outcome.success) :
    env.authOpenOk = true
      ∧ (∃ w, scanAuth env.allocOk u env.authData env.authErr = some w)
      ∧ (∃ c, env.mirror = some c)
      ∧ env.mirrorOpenErr = false
      ∧ createTmp env.createRes = true
      ∧ env.fdopenOk = true := by
  by_cases hopen : env.authOpenOk = true
  · cases hscan : scanAuth env.allocOk u env.authData env.authErr with
    | none => exact absurd h (by simp [update_passwd_local, hopen, hscan])
    | some w =>
      cases hm : env.mirror with
      | none => exact absurd h (by simp [update_passwd_local, hopen, hscan, hm])
      | some c =>
        by_cases hmo : env.mirrorOpenErr = true
        · exact absurd h (by simp [update_passwd_local, hopen, hscan, hm, hmo])
        · by_cases hcr : createTmp env.createRes = true
          · by_cases hfd : env.fdopenOk = true
            · refine ⟨hopen, ⟨w, rfl⟩, ⟨c, rfl⟩, ?_, hcr, hfd⟩
              cases hq : env.mirrorOpenErr
              · rfl
              · exact absurd hq hmo
            · exact absurd h
                (by simp [update_passwd_local, hopen, hscan, hm, hmo, hcr, hfd])
          · exact absurd h (by simp [update_passwd_local, hopen, hscan, hm, hmo, hcr])
  · exact absurd h (by simp [update_passwd_local, hopen])

theorem upd_copy_fatal (env : Env) (u c w : List Char)
    (hm : env.mirror = some c)
    (hscan : scanAuth env.allocOk u env.authData env.authErr = some w)
    (hfound : (copyLoopAux env.allocOk u w (c.length + 1)
        ⟨c, env.mirrorErr, false⟩ none false []).1 = true)
    (herr : (copyLoopAux env.allocOk u w (c.length + 1)
          ⟨c, env.mirrorErr, false⟩ none false []).2.1 < 0
      ∨ env.outErr = true ∨ env.closeEOF = true ∨ env.renameOk = false) :
    (update_passwd_local env u).outcome = Outcome.fatal := by
  by_cases hopen : env.authOpenOk = true
  · by_cases hmo : env.mirrorOpenErr = true
    · simp [update_passwd_local, hopen, hscan, hm, hmo]
    · by_cases hcr : createTmp env.createRes = true
      · by_cases hfd : env.fdopenOk = true
        · have hmo2 : env.mirrorOpenErr = false := by
            cases hq : env.mirrorOpenErr
            · rfl
            · exact absurd hq hmo
          unfold update_passwd_local
          rw [hscan, hm]
          simp only [hopen, if_true, hmo2, Bool.false_eq_true, if_false, hcr, hfd]
          rw [if_pos hfound]
          rcases herr with h | h | h | h
          · rw [if_pos h]
          · by_cases h1 : (copyLoopAux env.allocOk u w (c.length + 1)
                ⟨c, env.mirrorErr, false⟩ none false []).2.1 < 0
            · rw [if_pos h1]
            · rw [if_neg h1, if_pos h]
          · by_cases h1 : (copyLoopAux env.allocOk u w (c.length + 1)
                ⟨c, env.mirrorErr, false⟩ none false []).2.1 < 0
            · rw [if_pos h1]
            · rw [if_neg h1]
              by_cases h2 : env.outErr = true
              · rw [if_pos h2]
              · rw [if_neg h2, if_pos h]
          · by_cases h1 : (copyLoopAux env.allocOk u w (c.length + 1)
                ⟨c, env.mirrorErr, false⟩ none false []).2.1 < 0
            · rw [if_pos h1]
            · rw [if_neg h1]
              by_cases h2 : env.outErr = true
              · rw [if_pos h2]
              · rw [if_neg h2]
                by_cases h3 : env.closeEOF = true
                · rw [if_pos h3]
                · rw [if_neg h3, if_neg (show ¬env.renameOk = true by simp [h])]
        · simp [update_passwd_local, hopen, hscan, hm, hmo, hcr, hfd]
      · simp [update_passwd_local, hopen, hscan, hm, hmo, hcr]
  · simp [update_passwd_local, hopen]

/-! ### The claims -/

/-- C1: for every mirror content containing at least one line whose
username field matches the target, a successful run of the
synchronizer produces a mirror in which the first such line (in file
order) is replaced by the record found in the authoritative source,
and every other line is copied through unchanged with line order
preserved. -/
theorem claim_C1 (env : Env) (u c w m : List Char) (pre post : List (List Char))
    (hopen : env.authOpenOk = true) (hae : env.authErr = false)
    (hm : env.mirror = some c) (hmo : env.mirrorOpenErr = false)
    (hme : env.mirrorErr = false)
    (hcr : createTmp env.createRes = true) (hfd : env.fdopenOk = true)
    (hoe : env.outErr = false) (hce : env.closeEOF = false)
    (hrn : env.renameOk = true) (hal : env.allocOk = alwaysAlloc)
    (hw : (splitLines env.authData).find? (matchesUser u) = some w)
    (hsplit : splitLines c = pre ++ m :: post)
    (hmm : matchesUser u m = true)
    (hpre : pre.any (matchesUser u) = false) :
    update_passwd_local env u
      = ⟨Outcome.success, some (renderLines (pre ++ w :: post)), false⟩ := by
  have hany : (splitLines c).any (matchesUser u) = true := by
    rw [hsplit]
    simp [List.any_append, List.any_cons, hmm]
  rw [update_replace env u c w hopen hae hm hmo hme hcr hfd hoe hce hrn hal hw hany,
    hsplit, replaceFirstLine_of_split u w m pre post hpre hmm]

theorem claim_C1_witness :
    update_passwd_local
        (envHappy (("alice:HASH1:x\n").data) (("alice:HASHOLD:x\nbob:HASH2:y\n").data))
        (("alice").data)
      = ⟨Outcome.success,
         some (renderLines ([] ++ ("alice:HASH1:x").data :: [("bob:HASH2:y").data])),
         false⟩ :=
  claim_C1 (envHappy (("alice:HASH1:x\n").data) (("alice:HASHOLD:x\nbob:HASH2:y\n").data))
    (("alice").data) (("alice:HASHOLD:x\nbob:HASH2:y\n").data)
    (("alice:HASH1:x").data) (("alice:HASHOLD:x").data) [] [("bob:HASH2:y").data]
    rfl rfl rfl rfl rfl rfl rfl rfl rfl rfl rfl
    (by decide) (by decide) (by decide) (by decide)

/-- C2: no exit path of the synchronizer leaves a staging file behind,
and the signal handler installed for hangup, interrupt, quit and
terminate deletes the staging file, terminates the process with a
failure status, and never touches the mirror file: delivered at any
point after staging-file creation and before the rename, it leaves the
mirror equal to its pre-run content with no staging file on disk. -/
theorem claim_C2 (env : Env) (u : List Char) (st : MidState) :
    (update_passwd_local env u).tmpLeft = false ∧
    cleanup st = ⟨Outcome.fatal, st.mirror, false⟩ :=
  ⟨upd_tmpLeft env u, rfl⟩

/-- C3 counterexample: the claim says every read error during a run is
fatal (non-zero exit).  In this world the mirror stream delivers one
non-matching line and then reports a read error (the copy loop's final
`read_line` status is `-1`), yet the run takes the no-replacement
early return of source line 351 and exits successfully with status
zero. -/
theorem claim_C3_counterexample :
    (copyLoopAux alwaysAlloc (("alice").data) (("alice:a1").data)
        ((("bob:x\n").data).length + 1)
        ⟨("bob:x\n").data, true, false⟩ none false []).2.1 = -1 ∧
    envC3cex.mirrorErr = true ∧
    update_passwd_local envC3cex (("alice").data)
      = ⟨Outcome.success, some (("bob:x\n").data), false⟩ := by
  decide

/-- C3 (amended): every fatal exit of the synchronizer leaves the
mirror file exactly in its prior state and leaves no staging file, and
the mirror changes only on a successful run.  Each enumerated failure
mode is fatal (non-zero exit): an unopenable authoritative source; a
lookup miss or unreadable source (the scan yields no record); a
missing mirror; an unreadable mirror at open; staging-file creation
failure, including contention beyond the retry budget; `fdopen`
failure; and — when a replacement occurred — a copy-phase read error
(`read_line` status below zero), a write error, a close error, or a
rename error.  (A copy-phase read or write error when no replacement
occurred is not fatal: the run exits zero with the mirror unchanged,
as the counterexample shows.) -/
theorem claim_C3 (env : Env) (u : List Char) :
    ((update_passwd_local env u).outcome = Outcome.fatal →
      (update_passwd_local env u).mirror = env.mirror
        ∧ (update_passwd_local env u).tmpLeft = false) ∧
    (¬(update_passwd_local env u).mirror = env.mirror →
      (update_passwd_local env u).outcome = Outcome.success) ∧
    (env.authOpenOk = false → (update_passwd_local env u).outcome = Outcome.fatal) ∧
    (scanAuth env.allocOk u env.authData env.authErr = none →
      (update_passwd_local env u).outcome = Outcome.fatal) ∧
    (env.mirror = none → (update_passwd_local env u).outcome = Outcome.fatal) ∧
    (env.mirrorOpenErr = true → (update_passwd_local env u).outcome = Outcome.fatal) ∧
    (createTmp env.createRes = false →
      (update_passwd_local env u).outcome = Outcome.fatal) ∧
    (env.fdopenOk = false → (update_passwd_local env u).outcome = Outcome.fatal) ∧
    (∀ c w, env.mirror = some c →
      scanAuth env.allocOk u env.authData env.authErr = some w →
      (copyLoopAux env.allocOk u w (c.length + 1)
          ⟨c, env.mirrorErr, false⟩ none false []).1 = true →
      ((copyLoopAux env.allocOk u w (c.length + 1)
          ⟨c, env.mirrorErr, false⟩ none false []).2.1 < 0
        ∨ env.outErr = true ∨ env.closeEOF = true ∨ env.renameOk = false) →
      (update_passwd_local env u).outcome = Outcome.fatal) := by
  have houtcome : ∀ o : Outcome, ¬o = Outcome.success → o = Outcome.fatal := by
    intro o h
    cases o with
    | success => exact absurd rfl h
    | fatal => rfl
  refine ⟨fun h => ⟨upd_fatal_mirror env u h, upd_tmpLeft env u⟩,
    ?_, ?_, ?_, ?_, ?_, ?_, ?_, ?_⟩
  · intro hne
    cases hq : (update_passwd_local env u).outcome with
    | success => rfl
    | fatal => exact absurd (upd_fatal_mirror env u hq) hne
  · intro h
    simp [update_passwd_local, h]
  · intro h
    refine houtcome _ fun hs => ?_
    obtain ⟨-, ⟨w, hw⟩, -, -, -, -⟩ := upd_success_shape env u hs
    rw [h] at hw
    exact Option.noConfusion hw
  · intro h
    refine houtcome _ fun hs => ?_
    obtain ⟨-, -, ⟨c, hc⟩, -, -, -⟩ := upd_success_shape env u hs
    rw [h] at hc
    exact Option.noConfusion hc
  · intro h
    refine houtcome _ fun hs => ?_
    obtain ⟨-, -, -, hmo, -, -⟩ := upd_success_shape env u hs
    rw [h] at hmo
    exact Bool.noConfusion hmo
  · intro h
    refine houtcome _ fun hs => ?_
    obtain ⟨-, -, -, -, hcr, -⟩ := upd_success_shape env u hs
    rw [h] at hcr
    exact Bool.noConfusion hcr
  · intro h
    refine houtcome _ fun hs => ?_
    obtain ⟨-, -, -, -, -, hfd⟩ := upd_success_shape env u hs
    rw [h] at hfd
    exact Bool.noConfusion hfd
  · intro c w hmc hscan hfound herr
    exact upd_copy_fatal env u c w hmc hscan hfound herr

theorem claim_C3_witness :
    (update_passwd_local envAuthFail (("alice").data)).mirror = envAuthFail.mirror ∧
    (update_passwd_local envAuthFail (("alice").data)).tmpLeft = false :=
  (claim_C3 envAuthFail (("alice").data)).1 (by decide)

/-- C4 counterexample: the claim says that after every successful run
the mirror holds at most one line matching the target username.  If
the mirror already holds two `alice` records, the run succeeds but the
resulting mirror still holds two lines matching `alice`: only the
first was replaced. -/
theorem claim_C4_counterexample :
    update_passwd_local envC4cex (("alice").data)
      = ⟨Outcome.success, some (("alice:new\nalice:old2\n").data), false⟩ ∧
    (splitLines (("alice:new\nalice:old2\n").data)).countP
        (matchesUser (("alice").data)) = 2 := by
  decide

/-- C4 (amended): for every mirror content, a successful run preserves
the number of mirror lines matching the target username (the first
match is replaced by the authoritative record, which itself matches,
and no other line changes); in particular, if the mirror held at most
one matching line before the run, it holds at most one after. -/
theorem claim_C4 (env : Env) (u c w : List Char)
    (hopen : env.authOpenOk = true) (hae : env.authErr = false)
    (hm : env.mirror = some c) (hmo : env.mirrorOpenErr = false)
    (hme : env.mirrorErr = false)
    (hcr : createTmp env.createRes = true) (hfd : env.fdopenOk = true)
    (hoe : env.outErr = false) (hce : env.closeEOF = false)
    (hrn : env.renameOk = true) (hal : env.allocOk = alwaysAlloc)
    (hw : (splitLines env.authData).find? (matchesUser u) = some w) :
    ∃ c2, (update_passwd_local env u).mirror = some c2
      ∧ (splitLines c2).countP (matchesUser u) = (splitLines c).countP (matchesUser u)
      ∧ ((splitLines c).countP (matchesUser u) ≤ 1 →
          (splitLines c2).countP (matchesUser u) ≤ 1) := by
  have hwm : matchesUser u w = true := List.find?_some hw
  have hwnl : '\n' ∉ w := splitLines_not_nl env.authData w (List.mem_of_find?_eq_some hw)
  by_cases hany : (splitLines c).any (matchesUser u) = true
  · rw [update_replace env u c w hopen hae hm hmo hme hcr hfd hoe hce hrn hal hw hany]
    have hcount : (splitLines (renderLines (replaceFirstLine u w (splitLines c)))).countP
        (matchesUser u) = (splitLines c).countP (matchesUser u) := by
      rw [splitLines_render _ (fun x hx => by
        rcases mem_replaceFirstLine u w _ x hx with hx2 | hx2
        · exact hx2 ▸ hwnl
        · exact splitLines_not_nl c x hx2)]
      exact countP_replaceFirstLine u w _ hwm
    refine ⟨_, rfl, hcount, fun hle => ?_⟩
    rw [hcount]
    exact hle
  · have hany2 : (splitLines c).any (matchesUser u) = false := by
      cases hq : (splitLines c).any (matchesUser u) with
      | false => rfl
      | true => exact absurd hq hany
    rw [update_skip env u c w hopen hae hm hmo hme hcr hfd hal hw hany2]
    exact ⟨c, rfl, rfl, fun hle => hle⟩

theorem claim_C4_witness :
    ∃ c2, (update_passwd_local envC4cex (("alice").data)).mirror = some c2
      ∧ (splitLines c2).countP (matchesUser (("alice").data))
          = (splitLines (("alice:old1\nalice:old2\n").data)).countP
              (matchesUser (("alice").data))
      ∧ ((splitLines (("alice:old1\nalice:old2\n").data)).countP
            (matchesUser (("alice").data)) ≤ 1 →
          (splitLines c2).countP (matchesUser (("alice").data)) ≤ 1) :=
  claim_C4 envC4cex (("alice").data) (("alice:old1\nalice:old2\n").data)
    (("alice:new").data) rfl rfl rfl rfl rfl rfl rfl rfl rfl rfl rfl
    (by decide)

/-- C5: if the mirror contains no line matching the target username
while the authoritative source does contain a record for it, the run
succeeds (exit status zero), the staging file is discarded, and the
mirror is left unchanged — no new line is added.  The write, close and
rename outcomes are irrelevant: the no-replacement path never consults
them. -/
theorem claim_C5 (env : Env) (u c w : List Char)
    (hopen : env.authOpenOk = true) (hae : env.authErr = false)
    (hm : env.mirror = some c) (hmo : env.mirrorOpenErr = false)
    (hme : env.mirrorErr = false)
    (hcr : createTmp env.createRes = true) (hfd : env.fdopenOk = true)
    (hal : env.allocOk = alwaysAlloc)
    (hw : (splitLines env.authData).find? (matchesUser u) = some w)
    (hnone : (splitLines c).any (matchesUser u) = false) :
    update_passwd_local env u = ⟨Outcome.success, some c, false⟩ :=
  update_skip env u c w hopen hae hm hmo hme hcr hfd hal hw hnone

theorem claim_C5_witness :
    update_passwd_local envC5wit (("alice").data)
      = ⟨Outcome.success, some (("bob:h\n").data), false⟩ :=
  claim_C5 envC5wit (("alice").data) (("bob:h\n").data) (("alice:h1").data)
    rfl rfl rfl rfl rfl rfl rfl rfl (by decide) (by decide)

/-- C6: running the synchronizer a second time with the authoritative
record unchanged, starting from the mirror the first (successful) run
produced, yields a byte-identical mirror: the whole run is
idempotent. -/
theorem claim_C6 (env : Env) (u c w : List Char)
    (hopen : env.authOpenOk = true) (hae : env.authErr = false)
    (hm : env.mirror = some c) (hmo : env.mirrorOpenErr = false)
    (hme : env.mirrorErr = false)
    (hcr : createTmp env.createRes = true) (hfd : env.fdopenOk = true)
    (hoe : env.outErr = false) (hce : env.closeEOF = false)
    (hrn : env.renameOk = true) (hal : env.allocOk = alwaysAlloc)
    (hw : (splitLines env.authData).find? (matchesUser u) = some w) :
    (update_passwd_local env u).outcome = Outcome.success ∧
    update_passwd_local { env with mirror := (update_passwd_local env u).mirror } u
      = update_passwd_local env u := by
  have hwm : matchesUser u w = true := List.find?_some hw
  have hwnl : '\n' ∉ w := splitLines_not_nl env.authData w (List.mem_of_find?_eq_some hw)
  by_cases hany : (splitLines c).any (matchesUser u) = true
  · have h1 := update_replace env u c w hopen hae hm hmo hme hcr hfd hoe hce hrn hal hw hany
    have hnl2 : ∀ x ∈ replaceFirstLine u w (splitLines c), '\n' ∉ x := by
      intro x hx
      rcases mem_replaceFirstLine u w _ x hx with hx2 | hx2
      · exact hx2 ▸ hwnl
      · exact splitLines_not_nl c x hx2
    have hsplit2 : splitLines (renderLines (replaceFirstLine u w (splitLines c)))
        = replaceFirstLine u w (splitLines c) := splitLines_render _ hnl2
    have hany2 : (splitLines (renderLines (replaceFirstLine u w (splitLines c)))).any
        (matchesUser u) = true := by
      rw [hsplit2]
      exact List.any_eq_true.mpr ⟨w, replaceFirstLine_mem_self u w _ hany, hwm⟩
    constructor
    · rw [h1]
    · rw [h1]
      have h2 := update_replace
        { env with mirror := some (renderLines (replaceFirstLine u w (splitLines c))) }
        u (renderLines (replaceFirstLine u w (splitLines c))) w
        hopen hae rfl hmo hme hcr hfd hoe hce hrn hal hw hany2
      rw [h2, hsplit2, replaceFirstLine_idem u w _ hwm]
  · have hany2 : (splitLines c).any (matchesUser u) = false := by
      cases hq : (splitLines c).any (matchesUser u) with
      | false => rfl
      | true => exact absurd hq hany
    have h1 := update_skip env u c w hopen hae hm hmo hme hcr hfd hal hw hany2
    constructor
    · rw [h1]
    · rw [h1]
      exact update_skip { env with mirror := some c } u c w hopen hae rfl hmo hme
        hcr hfd hal hw hany2

theorem claim_C6_witness :
    (update_passwd_local
        (envHappy (("alice:new\n").data) (("alice:old\nbob:2\n").data))
        (("alice").data)).outcome = Outcome.success ∧
    update_passwd_local
        { envHappy (("alice:new\n").data) (("alice:old\nbob:2\n").data) with
          mirror := (update_passwd_local
            (envHappy (("alice:new\n").data) (("alice:old\nbob:2\n").data))
            (("alice").data)).mirror }
        (("alice").data)
      = update_passwd_local
          (envHappy (("alice:new\n").data) (("alice:old\nbob:2\n").data))
          (("alice").data) :=
  claim_C6 (envHappy (("alice:new\n").data) (("alice:old\nbob:2\n").data))
    (("alice").data) (("alice:old\nbob:2\n").data) (("alice:new").data)
    rfl rfl rfl rfl rfl rfl rfl rfl rfl rfl rfl (by decide)

/-- C7: for a username not containing a colon, the authoritative scan
returns exactly the first line (in file order) whose text up to the
first colon equals the username — first match wins, duplicates are not
an error — and the code's matching test agrees with the
field-up-to-colon criterion on every line. -/
theorem claim_C7 (a u : List Char) (hu : ':' ∉ u) :
    scanAuth alwaysAlloc u a false = (splitLines a).find? (specFieldMatch u) ∧
    ∀ l, matchesUser u l = specFieldMatch u l := by
  have hfun : matchesUser u = specFieldMatch u :=
    funext fun l => matchesUser_eq_specFieldMatch u l hu
  constructor
  · rw [scanAuth_eq, hfun]
  · intro l
    rw [hfun]

theorem claim_C7_witness :
    scanAuth alwaysAlloc (("alice").data) (("bob:1\nalice:2\nalice:3\n").data) false
      = (splitLines (("bob:1\nalice:2\nalice:3\n").data)).find?
          (specFieldMatch (("alice").data)) ∧
    ∀ l, matchesUser (("alice").data) l = specFieldMatch (("alice").data) l :=
  claim_C7 (("bob:1\nalice:2\nalice:3\n").data) (("alice").data) (by decide)

set_option maxRecDepth 8192 in
/-- C8 counterexample: the claim says every I/O error during a
`read_line` call yields the failure outcome.  On a stream that
delivers 127 characters (filling the initial 128-byte buffer) and then
reports a device error, the error strikes after content was
accumulated, so `read_line` returns the partial line as a success —
the sticky error flag shows the error did occur during the call. -/
theorem claim_C8_counterexample :
    (read_line alwaysAlloc ⟨List.replicate 127 'a', true, false⟩ none).1
        = ReadResult.line (List.replicate 127 'a') ∧
    (read_line alwaysAlloc ⟨List.replicate 127 'a', true, false⟩ none).2.1.errFlag = true ∧
    ¬ReadResult.line (List.replicate 127 'a') = ReadResult.fail := by
  decide

/-- C8 (amended): an allocation failure always yields the failure
outcome — whether it is the initial `malloc(128)` or the `realloc`
that doubles a buffer the incoming data has filled without a newline,
at any buffer size and offset — and an I/O error yields the failure
outcome whenever it strikes before any line content has been
accumulated in the call, both with a fresh and with an already
allocated buffer of any capacity; in particular, after an error was
consumed by a partial-line success, the next call on the now-empty,
still-erroring stream fails.  The failure outcome is a constructor
distinct from success and end-of-stream. -/
theorem claim_C8 (aOk : Nat → Bool) (s : CStream) (d : List Char) (e f : Bool) (b : Nat) :
    (aOk 128 = false → (read_line aOk s none).1 = ReadResult.fail) ∧
    (aOk 128 = true → aOk 256 = false → '\n' ∉ d → 127 ≤ d.length →
      (read_line aOk ⟨d, e, f⟩ none).1 = ReadResult.fail) ∧
    (∀ (fuel : Nat) (acc : List Char) (b2 : Nat),
      acc.length + 2 ≤ b2 → '\n' ∉ d → b2 - acc.length - 1 ≤ d.length →
      aOk (b2 * 2) = false →
      (readLineAux aOk (fuel + 1) ⟨d, e, f⟩ b2 acc).1 = ReadResult.fail) ∧
    ('\n' ∉ d → d.length < 127 →
      (read_line aOk ⟨d, true, f⟩ none).1 = ReadResult.fail) ∧
    (2 ≤ b → '\n' ∉ d → d.length < b - 1 →
      (read_line aOk ⟨d, true, f⟩ (some b)).1 = ReadResult.fail) ∧
    ¬ReadResult.fail = ReadResult.eof ∧ (∀ l, ¬ReadResult.fail = ReadResult.line l) := by
  refine ⟨?_, ?_, ?_, ?_, ?_, ?_, ?_⟩
  case refine_6 =>
    intro h
    exact ReadResult.noConfusion h
  case refine_7 =>
    intro l h
    exact ReadResult.noConfusion h
  · intro h
    simp [read_line, h]
  · intro h1 h2 hnl hlen
    have h2b : aOk (128 * 2) = false := by
      rw [show (128 : Nat) * 2 = 256 by norm_num]
      exact h2
    have hmain := readLineAux_reallocFail aOk d.length d e f 128 []
      (by simp) hnl (by simp only [List.length_nil, Nat.sub_zero]; omega) h2b
    simp [read_line, h1, hmain]
  · intro fuel acc b2 hb2 hnl hlen hre
    rw [readLineAux_reallocFail aOk fuel d e f b2 acc hb2 hnl hlen hre]
  · intro hnl hshort
    by_cases h1 : aOk 128 = true
    · have hmain := readLineAux_errShort aOk d.length d f 128 []
        (by simp) hnl (by simp only [List.length_nil, Nat.sub_zero]; omega)
      simp [read_line, h1, hmain]
    · simp [read_line, h1]
  · intro hb hnl hshort
    have hmain := readLineAux_errShort aOk d.length d f b []
      (by simp only [List.length_nil]; omega) hnl
      (by simp only [List.length_nil, Nat.sub_zero]; omega)
    simp [read_line, hmain]

set_option maxRecDepth 8192 in
theorem claim_C8_witness :
    (read_line (fun n => decide (n < 200))
        ⟨List.replicate 127 'a', false, false⟩ none).1 = ReadResult.fail :=
  (claim_C8 (fun n => decide (n < 200)) ⟨List.replicate 127 'a', false, false⟩
      (List.replicate 127 'a') false false 2).2.1
    (by decide) (by decide) (by decide) (by decide)

/-- C9: a stream whose final line lacks a terminator still yields that
line successfully, exactly once; the next `read_line` call on the same
stream reports end of stream. -/
theorem claim_C9 (p : List Char) (h1 : p ≠ []) (h2 : '\n' ∉ p) :
    (read_line alwaysAlloc ⟨p, false, false⟩ none).1 = ReadResult.line p ∧
    (read_line alwaysAlloc (read_line alwaysAlloc ⟨p, false, false⟩ none).2.1
        (read_line alwaysAlloc ⟨p, false, false⟩ none).2.2).1 = ReadResult.eof := by
  obtain ⟨b2, heq, hb2⟩ := read_line_tail p false none h2 h1 trivial
  constructor
  · rw [heq]
  · rw [heq]
    obtain ⟨b3, heq2, _⟩ := read_line_eof (some b2) hb2
    show (read_line alwaysAlloc ⟨[], false, false⟩ (some b2)).1 = ReadResult.eof
    rw [heq2]

theorem claim_C9_witness :
    (read_line alwaysAlloc ⟨("abc").data, false, false⟩ none).1
        = ReadResult.line (("abc").data) ∧
    (read_line alwaysAlloc (read_line alwaysAlloc ⟨("abc").data, false, false⟩ none).2.1
        (read_line alwaysAlloc ⟨("abc").data, false, false⟩ none).2.2).1
        = ReadResult.eof :=
  claim_C9 (("abc").data) (by decide) (by decide)

/-- C10: every line the copy loop writes, including the last, is
terminated with exactly one newline (the output is the rendering of
the line list); consequently, when the mirror's final line lacks a
trailing newline, the copied output on the no-replacement path is the
input plus one appended newline — not a byte-for-byte copy. -/
theorem claim_C10 (c u w : List Char)
    (hnone : (splitLines c).any (matchesUser u) = false)
    (hne : c ≠ []) (hlast : ¬c.getLast? = some '\n') :
    (copyLoopAux alwaysAlloc u w (c.length + 1) ⟨c, false, false⟩ none false []).2.2
        = renderLines (splitLines c) ∧
    renderLines (splitLines c) = c ++ ['\n'] ∧
    ¬c ++ ['\n'] = c := by
  refine ⟨?_, renderLines_no_final_nl c hne hlast, ?_⟩
  · rw [copyLoopAux_go u w (c.length + 1) c [] none (Nat.le_refl _) trivial]
    rw [replaceFirstLine_of_no_match u w _ hnone]
    simp
  · intro hcontra
    have hlen := congrArg List.length hcontra
    simp at hlen

theorem claim_C10_witness :
    (copyLoopAux alwaysAlloc (("zed").data) (("zed:1").data)
        ((("alice:x\nbob:y").data).length + 1)
        ⟨("alice:x\nbob:y").data, false, false⟩ none false []).2.2
        = renderLines (splitLines (("alice:x\nbob:y").data)) ∧
    renderLines (splitLines (("alice:x\nbob:y").data))
        = ("alice:x\nbob:y").data ++ ['\n'] ∧
    ¬("alice:x\nbob:y").data ++ ['\n'] = ("alice:x\nbob:y").data :=
  claim_C10 (("alice:x\nbob:y").data) (("zed").data) (("zed:1").data)
    (by decide) (by decide) (by decide)
